import Mathlib

/-!
Verification of the roxtract ROM-image parser.

The definitions below are a shallow embedding of the Rust sources
(`src/bintrinsics.rs`, `src/heuristics.rs`, `src/lib.rs`).  Byte buffers are
`List Nat` (each element an octet value), `u32` values are `Nat` with explicit
checked/saturating/wrapping arithmetic at the points the source uses it, and
fallible operations return `Option`/`Except`.  All definitions are executable.
-/

namespace Roxtract

/-- Numeric bound `u32::MAX` (= 2^32 - 1), also the value of `NonZeroU32::MAX`
used by the offset cache as its cached-failure sentinel. -/
def U32_MAX : Nat := 4294967295

/-- Numeric modulus 2^32 for wrapping `u32` arithmetic. -/
def U32_MOD : Nat := 4294967296

/-- Model of `u32::checked_add`: the sum if it is representable, else `none`. -/
def checked_add32 (a b : Nat) : Option Nat :=
  if a + b ≤ U32_MAX then some (a + b) else none

/-- Model of `u32::checked_sub`: the difference if it does not underflow. -/
def checked_sub32 (a b : Nat) : Option Nat :=
  if b ≤ a then some (a - b) else none

/-- Model of `u32::saturating_add` (clamped at `u32::MAX`). -/
def saturating_add32 (a b : Nat) : Nat :=
  min (a + b) U32_MAX

/-! ## `Slice32` (src/bintrinsics.rs)

A `Slice32` is a byte slice whose length is at most `i32::MAX`; we embed it as
a bare `List Nat` and carry the length invariant as a hypothesis where a
theorem needs it. -/

namespace Slice32

/-- Embeds `Slice32::read_byte`: `self.0.get(idx).copied()`. -/
def read_byte (s : List Nat) (idx : Nat) : Option Nat :=
  s[idx]?

/-- The value of a 4-byte little-endian unaligned load at `idx`
(`read_unaligned` on a `*const u32` in `read_word`; the bounds are checked by
the caller, so the default-0 padding of `getD` is never observed in range). -/
def read_le_word (s : List Nat) (idx : Nat) : Nat :=
  s.getD idx 0 + 256 * s.getD (idx + 1) 0 + 65536 * s.getD (idx + 2) 0
    + 16777216 * s.getD (idx + 3) 0

/-- Embeds `Slice32::read_word`: fails unless `idx.saturating_add(4) ≤ len`,
then performs an unaligned little-endian 4-byte load. -/
def read_word (s : List Nat) (idx : Nat) : Option Nat :=
  if saturating_add32 idx 4 > s.length then none
  else some (read_le_word s idx)

/-- Embeds `Slice32::subslice`: the bytes of `self[start..stop)`, or `none`
when `start > stop` or either bound exceeds the length. -/
def subslice (s : List Nat) (start stop : Nat) : Option (List Nat) :=
  if start > stop then none
  else if start > s.length ∨ stop > s.length then none
  else some ((s.drop start).take (stop - start))

/-- Embeds `Slice32::subslice_from`: `subslice(new_start .. len)`. -/
def subslice_from (s : List Nat) (new_start : Nat) : Option (List Nat) :=
  subslice s new_start s.length

/-- Embeds `Slice32::cstr`: the `while read_byte(n) ≠ 0` scan, returning the
prefix before the first zero byte, or `none` when the slice ends first. -/
def cstr : List Nat → Option (List Nat)
  | [] => none
  | b :: rest => if b = 0 then some [] else (cstr rest).map (b :: ·)

end Slice32

/-! ## Byte-pattern search (src/heuristics.rs, `Rom::find`) -/

namespace Rom

/-- Embeds `haystack.iter().copied().position(|n| n == needle_first)`:
index of the first occurrence of byte `b`. -/
def posFirst (b : Nat) : List Nat → Option Nat
  | [] => none
  | x :: xs => if x = b then some 0 else (posFirst b xs).map (· + 1)

/-- Embeds the `loop` in `Rom::find`.  `nf`/`nr` are the split needle,
`s` accumulates `hs_sub_start`.  Each iteration drops at least one byte of
the haystack, so the fuel `haystack.length + 1` supplied by `find` can never
run out; fuel 0 is unreachable. -/
def findLoop (nf : Nat) (nr : List Nat) : Nat → List Nat → Nat → Option Nat
  | 0, _, _ => none
  | fuel + 1, haystack, s =>
    match posFirst nf haystack with
    | none => none
    | some start =>
      if start + (nr.length + 1) > haystack.length then none
      else if (haystack.drop (start + 1)).take nr.length = nr then
        some (start + s)
      else findLoop nf nr fuel (haystack.drop (start + 1)) (s + (start + 1))

/-- Embeds `Rom::find`: empty haystack or empty needle give `none`, otherwise
run the scan loop. -/
def find (haystack needle : List Nat) : Option Nat :=
  if haystack = [] then none
  else
    match needle with
    | [] => none
    | nf :: nr => findLoop nf nr (haystack.length + 1) haystack 0

end Rom

/-- The needle `n` occurs in `h` at index `k`: the bytes of `h` at
`[k, k + n.length)` are exactly `n` (forcing `k + n.length ≤ h.length`). -/
def matchAt (h n : List Nat) (k : Nat) : Prop :=
  (h.drop k).take n.length = n

instance (h n : List Nat) (k : Nat) : Decidable (matchAt h n k) := by
  unfold matchAt; infer_instance

/-! ## Offset-correlation heuristic (src/heuristics.rs,
`WordCursor` and `Rom::find_offset_to`) -/

namespace Rom

/-- Result of running `find_offset_to`'s cursor loop under a fuel bound.
`outOfFuel` marks that the loop was still running when the fuel ran out;
the loop in the source has no fuel bound, so an input on which every fuel
gives `outOfFuel` is one on which the source loops forever. -/
inductive LoopResult where
  | found (v : Nat)
  | notFound
  | outOfFuel
deriving DecidableEq

/-- Embeds `WordCursor::current`: `matches!(cursor_rel.checked_add(4),
Some(n) if n ≤ bytes.len())` guards an unaligned little-endian load. -/
def wc_current (bytes : List Nat) (cursor_rel : Nat) : Option Nat :=
  if cursor_rel + 4 ≤ U32_MAX ∧ cursor_rel + 4 ≤ bytes.length then
    some (Slice32.read_le_word bytes cursor_rel)
  else none

/-- Embeds the `loop` of `Rom::find_offset_to`.  `cursor_rel` is the
`WordCursor` position; `move_prev` is `wrapping_sub(4)` on `u32`. -/
def fotLoop (bytes : List Nat) (offset target : Nat) : Nat → Nat → LoopResult
  | 0, _ => .outOfFuel
  | fuel + 1, cursor_rel =>
    if offset ≤ cursor_rel then
      let possible_start := cursor_rel - offset
      if (wc_current bytes cursor_rel).bind
          (fun cc => checked_add32 possible_start cc) = some target then
        .found possible_start
      else fotLoop bytes offset target fuel ((cursor_rel + U32_MOD - 4) % U32_MOD)
    else .notFound

/-- Embeds `Rom::find_offset_to`: locate the needle, truncate the prefix
before it to whole words (`len & !3`, the `WordCursor::new` truncation), and
walk a word cursor backwards from the last whole word
(`WordCursor::new_end`, `saturating_sub(4)`). -/
def find_offset_to (haystack needle : List Nat) (offset : Nat) (fuel : Nat) :
    LoopResult :=
  if haystack.length < 4 then .notFound
  else
    match find haystack needle with
    | none => .notFound
    | some target =>
      let sub := haystack.take target
      let bytes := sub.take (sub.length - sub.length % 4)
      fotLoop bytes offset target fuel (bytes.length - 4)

/-- `find_offset_to` as an `Option`, with fuel `haystack.length + 2`: ample
for every terminating run (the cursor's first descent reaches 0 within
`length / 4 + 1` steps).  A diverging run maps to `none`. -/
def find_offset_to_opt (haystack needle : List Nat) (offset : Nat) :
    Option Nat :=
  match find_offset_to haystack needle offset (haystack.length + 2) with
  | .found v => some v
  | _ => none

end Rom

/-! ## ROM model (src/lib.rs) -/

/-- Embeds `RomLoadError`. -/
inductive RomLoadError where
  | io
  | romInvalidSize
deriving DecidableEq

/-- Embeds `RomDecodeError`. -/
inductive RomDecodeError where
  | utilityModuleNotFound
  | moduleChainBroken
  | unterminatedCstr
deriving DecidableEq

/-- Embeds `struct Rom`: the image bytes plus the three memo cells.  A cell
holds `none` (`Cell` never written), or `some v` for a cached `NonZeroU32`
`v`; `v = U32_MAX` (`NonZeroU32::MAX`) is the cached-failure sentinel. -/
structure Rom where
  data : List Nat
  kernel_start : Option Nat
  module_chain_start : Option Nat
  version_name_str : Option Nat
deriving DecidableEq

/-- `ROM_LIMIT`: 12 MiB, `12 << 20`. -/
def ROM_LIMIT : Nat := 12582912

namespace Rom

/-- Embeds `Rom::from_mem`: rejects images larger than `ROM_LIMIT` or whose
length is not a multiple of 4 (`len & 3 != 0`); otherwise wraps the bytes
unchanged with all three caches empty. -/
def from_mem (mem : List Nat) : Except RomLoadError Rom :=
  if mem.length > ROM_LIMIT ∨ mem.length % 4 ≠ 0 then
    .error RomLoadError.romInvalidSize
  else .ok ⟨mem, none, none, none⟩

/-- Embeds `Rom::from_file_impl` in the case where both I/O operations
succeed and the metadata length equals the number of bytes read: the size
gate `n ≤ ROM_LIMIT && n & 3 == 0` applied to the file length, before any
read is attempted.  (The `IoError` paths carry no logic to verify.) -/
def from_file_pure (contents : List Nat) : Except RomLoadError Rom :=
  if contents.length ≤ ROM_LIMIT ∧ contents.length % 4 = 0 then
    .ok ⟨contents, none, none, none⟩
  else .error RomLoadError.romInvalidSize

/-- Embeds `Rom::recell_offset` as a pure state transformer on one cache
cell: returns (result, new cell contents).  `found` is the value the `find`
closure would compute; on a cache hit it is not consulted. -/
def recell_offset (cell : Option Nat) (found : Option Nat) :
    Option Nat × Option Nat :=
  match cell with
  | some v => (if v < U32_MAX then some v else none, some v)
  | none =>
    let result := found.bind (fun n => if n = 0 then none else some n)
    (result, some (result.getD U32_MAX))

/-- The byte sequence `b"MODULE#\0"`. -/
def moduleHashNeedle : List Nat := [77, 79, 68, 85, 76, 69, 35, 0]

/-- The byte sequence `b"UtilityModule\0"`. -/
def utilityModuleNeedle : List Nat :=
  [85, 116, 105, 108, 105, 116, 121, 77, 111, 100, 117, 108, 101, 0]

/-- The `find` closure of `Rom::kernel_start`: find `b"MODULE#\0"`, add 8
(checked), and require the result to stay strictly inside the image. -/
def kernelFind (data : List Nat) : Option Nat :=
  (find data moduleHashNeedle).bind
    (fun p => (checked_add32 p 8).filter (fun n => decide (n < data.length)))

/-- The `find` closure of `Rom::module_chain_start`:
`find_offset_to(b"UtilityModule\0", 0x10)`, then `checked_sub(4)` to back up
over the length-prefix word. -/
def mcsFind (data : List Nat) : Option Nat :=
  (find_offset_to_opt data utilityModuleNeedle 16).bind
    (fun n => checked_sub32 n 4)

/-- Embeds `Rom::kernel_start` as a state transformer: the returned offset
and the `Rom` with its `kernel_start` cell updated. -/
def kernelStart (r : Rom) : Option Nat × Rom :=
  let p := recell_offset r.kernel_start (kernelFind r.data)
  (p.1, { r with kernel_start := p.2 })

/-- Embeds `Rom::module_chain_start` as a state transformer. -/
def moduleChainStart (r : Rom) : Option Nat × Rom :=
  let p := recell_offset r.module_chain_start (mcsFind r.data)
  (p.1, { r with module_chain_start := p.2 })

end Rom

/-! ## Module chain iterator (src/lib.rs, `ModuleChain` / `Module`) -/

/-- Embeds `struct Module`: a byte view plus its absolute offset. -/
structure Module where
  bytes : List Nat
  offset : Nat
deriving DecidableEq

/-- Embeds `struct ModuleChain`: the ROM bytes and the cursor position
(`u32::MAX` is the exhausted sentinel). -/
structure ModuleChain where
  rom : List Nat
  pos : Nat
deriving DecidableEq

namespace ModuleChain

/-- Embeds `ModuleChain::next` as a state transformer: the yielded item (if
any) and the successor state.  Both `?` early exits before the `pos`
assignment leave `pos` unchanged; the in-range filter is the `in_range`
closure `*n < rom.len()`. -/
def next (mc : ModuleChain) : Option Module × ModuleChain :=
  match checked_add32 mc.pos 4, Slice32.read_word mc.rom mc.pos with
  | some module_start, some module_len =>
    if module_len > 0 then
      let pos2 := ((checked_add32 mc.pos module_len).filter
        (fun n => decide (n < mc.rom.length))).getD U32_MAX
      let mc' : ModuleChain := { mc with pos := pos2 }
      match checked_sub32 module_start 4 with
      | none => (none, mc')
      | some ms4 =>
        match Slice32.subslice mc.rom module_start
            (saturating_add32 ms4 module_len) with
        | none => (none, mc')
        | some bytes => (some ⟨bytes, module_start⟩, mc')
    else (none, { mc with pos := U32_MAX })
  | _, _ => (none, mc)

end ModuleChain

namespace Module

/-- Embeds `Module::title`: read the title offset word at `0x10`, shift the
view there, extract the C-string; every failure becomes `UnterminatedCstr`. -/
def title (m : Module) : Except RomDecodeError (List Nat) :=
  match ((Slice32.read_word m.bytes 16).bind
      (fun o => Slice32.subslice_from m.bytes o)).bind Slice32.cstr with
  | some s => .ok s
  | none => .error RomDecodeError.unterminatedCstr

/-- Spec-side restatement of `title` for comparison, following the words of
the spec (§4.5) and claim C7: read a 32-bit relative offset at byte `0x10`
of the module's view, shift the view to that offset, and on success return
the view up to (excluding) the first zero terminator; if the word read
fails, or the shift is out of range, or the shifted view holds no zero
byte, fail with the single collapsed error `UnterminatedCstr`. -/
def titleSpec (bytes : List Nat) : Except RomDecodeError (List Nat) :=
  match Slice32.read_word bytes 16 with
  | none => .error RomDecodeError.unterminatedCstr
  | some o =>
    match Slice32.subslice_from bytes o with
    | none => .error RomDecodeError.unterminatedCstr
    | some v =>
      if 0 ∈ v then .ok (v.takeWhile (fun b => b != 0))
      else .error RomDecodeError.unterminatedCstr

end Module

/-! ## Known-version fingerprint (src/heuristics.rs, `KnownRiscOsVersion`) -/

/-- CRC-32 bit step of the external `crc_any` crate's `CRCu32::crc32()`.
Modelled from the spec: `crc_any` is a dependency, not part of this
repository; its `crc32()` is the standard reflected CRC-32 (IEEE), polynomial
`0xEDB88320`, initial value and final xor `0xFFFFFFFF`. -/
def crc32_bit_step (c : Nat) : Nat :=
  if c % 2 = 1 then (c / 2) ^^^ 0xEDB88320 else c / 2

/-- CRC-32 update by one byte: xor in the byte, then eight bit steps. -/
def crc32_byte_step (c b : Nat) : Nat :=
  crc32_bit_step (crc32_bit_step (crc32_bit_step (crc32_bit_step
    (crc32_bit_step (crc32_bit_step (crc32_bit_step (crc32_bit_step
      (c ^^^ b))))))))

/-- Whole-buffer CRC-32 (`CRCu32::crc32()` digest + `get_crc`). -/
def crc32 (data : List Nat) : Nat :=
  (data.foldl crc32_byte_step 0xFFFFFFFF) ^^^ 0xFFFFFFFF

/-- Embeds `struct KnownRiscOsVersion`. -/
structure KnownRiscOsVersion where
  name_high_level : String
  name_internal : List Nat
  name_internal_pos : Nat
  crc32 : Nat

/-- The static catalog entry `RISC_OS_311`
(`b"RISC OS\t\t3.11 (29 Sep 1992)\0"` at `0x498c`). -/
def RISC_OS_311 : KnownRiscOsVersion :=
  { name_high_level := "RISC OS 3.11"
    name_internal := [82, 73, 83, 67, 32, 79, 83, 9, 9, 51, 46, 49, 49, 32,
      40, 50, 57, 32, 83, 101, 112, 32, 49, 57, 57, 50, 41, 0]
    name_internal_pos := 18828
    crc32 := 0x54c0c963 }

/-- Embeds `KnownRiscOsVersion::matches` (`matches` is reserved in Lean):
checked end-of-name offset filtered against the image length, exact
byte-range comparison, then whole-image CRC-32 comparison. -/
def KnownRiscOsVersion.matchesRom (v : KnownRiscOsVersion)
    (rom_data : List Nat) : Bool :=
  match (checked_add32 v.name_internal_pos v.name_internal.length).filter
      (fun n => decide (n ≤ rom_data.length)) with
  | none => false
  | some slice_end =>
    if (rom_data.drop v.name_internal_pos).take
        (slice_end - v.name_internal_pos) ≠ v.name_internal then false
    else decide (Roxtract.crc32 rom_data = v.crc32)

/-! ## Helper lemmas about the byte-pattern search -/

theorem posFirst_drop {b : Nat} :
    ∀ {l : List Nat} {i : Nat}, Rom.posFirst b l = some i →
      l.drop i = b :: l.drop (i + 1) := by
  intro l
  induction l with
  | nil => intro i h; simp [Rom.posFirst] at h
  | cons x xs ih =>
    intro i h
    simp only [Rom.posFirst] at h
    by_cases hx : x = b
    · rw [if_pos hx] at h
      obtain rfl : (0 : Nat) = i := Option.some.inj h
      subst hx
      simp
    · rw [if_neg hx] at h
      rcases Option.map_eq_some'.mp h with ⟨j, hj, rfl⟩
      simpa using ih hj

theorem posFirst_min_drop {b : Nat} :
    ∀ {l : List Nat} {i : Nat}, Rom.posFirst b l = some i →
      ∀ j, j < i → (l.drop j).head? ≠ some b := by
  intro l
  induction l with
  | nil => intro i h; simp [Rom.posFirst] at h
  | cons x xs ih =>
    intro i h j hj
    simp only [Rom.posFirst] at h
    by_cases hx : x = b
    · rw [if_pos hx] at h
      obtain rfl : (0 : Nat) = i := Option.some.inj h
      exact absurd hj (by omega)
    · rw [if_neg hx] at h
      rcases Option.map_eq_some'.mp h with ⟨i2, hi2, rfl⟩
      cases j with
      | zero => simpa using hx
      | succ m =>
        have hm : m < i2 := by omega
        simpa using ih hi2 m hm

theorem matchAt_head {h : List Nat} {nf : Nat} {nr : List Nat} {j : Nat}
    (hm : matchAt h (nf :: nr) j) : (h.drop j).head? = some nf := by
  unfold matchAt at hm
  cases hd : h.drop j with
  | nil => rw [hd] at hm; simp at hm
  | cons c t =>
    rw [hd] at hm
    simp only [List.length_cons, List.take_succ_cons] at hm
    injection hm with h1 h2
    simp [h1]

theorem matchAt_drop_shift {h n : List Nat} {m j : Nat} :
    matchAt (h.drop m) n j ↔ matchAt h n (m + j) := by
  unfold matchAt
  rw [List.drop_drop]

theorem findLoop_sound (nf : Nat) (nr : List Nat) :
    ∀ (fuel : Nat) (hs : List Nat) (s k : Nat),
      Rom.findLoop nf nr fuel hs s = some k →
      s ≤ k ∧ matchAt hs (nf :: nr) (k - s) ∧
        ∀ j, j < k - s → ¬ matchAt hs (nf :: nr) j := by
  intro fuel
  induction fuel with
  | zero => intro hs s k h; simp [Rom.findLoop] at h
  | succ fuel ih =>
    intro hs s k h
    simp only [Rom.findLoop] at h
    split at h
    · exact absurd h (by simp)
    · rename_i start hp
      by_cases hrange : start + (nr.length + 1) > hs.length
      · rw [if_pos hrange] at h; exact absurd h (by simp)
      · rw [if_neg hrange] at h
        have hdrop := posFirst_drop hp
        by_cases hcmp : (hs.drop (start + 1)).take nr.length = nr
        · rw [if_pos hcmp] at h
          obtain rfl : start + s = k := Option.some.inj h
          have hks : start + s - s = start := by omega
          refine ⟨by omega, ?_, ?_⟩
          · rw [hks]
            unfold matchAt
            rw [hdrop]
            simp [List.take_succ_cons, hcmp]
          · intro j hj
            rw [hks] at hj
            intro hmj
            exact posFirst_min_drop hp j hj (matchAt_head hmj)
        · rw [if_neg hcmp] at h
          obtain ⟨h1, h2, h3⟩ := ih (hs.drop (start + 1)) (s + (start + 1)) k h
          refine ⟨by omega, ?_, ?_⟩
          · have heq : (start + 1) + (k - (s + (start + 1))) = k - s := by omega
            have hsh := matchAt_drop_shift.mp h2
            rwa [heq] at hsh
          · intro j hj hmj
            rcases Nat.lt_trichotomy j start with hlt | rfl | hgt
            · exact posFirst_min_drop hp j hlt (matchAt_head hmj)
            · apply hcmp
              unfold matchAt at hmj
              rw [hdrop] at hmj
              simp only [List.length_cons, List.take_succ_cons] at hmj
              exact (List.cons.inj hmj).2
            · have hj2 : j - (start + 1) < k - (s + (start + 1)) := by omega
              apply h3 (j - (start + 1)) hj2
              rw [matchAt_drop_shift]
              have hje : (start + 1) + (j - (start + 1)) = j := by omega
              rw [hje]
              exact hmj

/-- Claim C1: when `find(h, n)` returns `some k`, the bytes of `h` at
`[k, k + n.length)` equal `n`, and no smaller index satisfies that same
equality: `find` returns the first occurrence. -/
theorem find_first_match (h n : List Nat) (k : Nat)
    (hf : Rom.find h n = some k) :
    matchAt h n k ∧ ∀ j, j < k → ¬ matchAt h n j := by
  unfold Rom.find at hf
  by_cases hh : h = []
  · rw [if_pos hh] at hf; exact absurd hf (by simp)
  · rw [if_neg hh] at hf
    cases n with
    | nil => exact absurd hf (by simp)
    | cons nf nr =>
      obtain ⟨h1, h2, h3⟩ := findLoop_sound nf nr (h.length + 1) h 0 k hf
      rw [Nat.sub_zero] at h2 h3
      exact ⟨h2, h3⟩

/-- Witness for C1 at a concrete input: in `b"aabc"`, the needle `b"abc"`
is found at index 1, matches there, and matches at no smaller index. -/
theorem find_first_match_w :
    matchAt [97, 97, 98, 99] [97, 98, 99] 1 ∧
    ∀ j, j < 1 → ¬ matchAt [97, 97, 98, 99] [97, 98, 99] j :=
  find_first_match [97, 97, 98, 99] [97, 98, 99] 1 (by decide)

/-- Claim C5: `find(h, n)` returns `none` whenever the needle or the
haystack is empty, regardless of the other argument. -/
theorem find_empty_returns_none (h n : List Nat) (he : n = [] ∨ h = []) :
    Rom.find h n = none := by
  rcases he with rfl | rfl
  · by_cases hh : h = [] <;> simp [Rom.find, hh]
  · simp [Rom.find]

/-- Witness for C5: concrete empty-needle and empty-haystack calls. -/
theorem find_empty_returns_none_w :
    Rom.find [] [120] = none ∧ Rom.find [1, 2, 3] [] = none :=
  ⟨find_empty_returns_none [] [120] (Or.inr rfl),
   find_empty_returns_none [1, 2, 3] [] (Or.inl rfl)⟩

/-- Claim C4: under the `Slice32` length invariant (≤ `i32::MAX`),
`read_word(idx)` succeeds exactly when `idx + 4 ≤ length` — the saturating
guard makes the test immune to overflow and imposes no 4-byte alignment on
`idx` — and the value read is the little-endian 32-bit integer formed from
the four bytes at `idx`. -/
theorem read_word_defined_iff (b : List Nat) (idx : Nat)
    (hb : b.length ≤ 2147483647) :
    Slice32.read_word b idx =
      if idx + 4 ≤ b.length then some (Slice32.read_le_word b idx)
      else none := by
  unfold Slice32.read_word saturating_add32 U32_MAX
  rcases Nat.le_total (idx + 4) 4294967295 with hle | hle
  · rw [min_eq_left hle]
    by_cases h2 : idx + 4 ≤ b.length
    · rw [if_neg (by omega), if_pos h2]
    · rw [if_pos (by omega), if_neg h2]
  · rw [min_eq_right hle, if_pos (by omega), if_neg (by omega)]

/-- Witness for C4: a misaligned in-range read yields the little-endian
word, and a read reaching past the end fails. -/
theorem read_word_defined_iff_w :
    Slice32.read_word [1, 2, 3, 4, 5] 1 = some 84148994 ∧
    Slice32.read_word [1, 2, 3, 4, 5] 2 = none := by
  constructor
  · rw [read_word_defined_iff [1, 2, 3, 4, 5] 1 (by decide)]; decide
  · rw [read_word_defined_iff [1, 2, 3, 4, 5] 2 (by decide)]; decide

/-- Claim C6: constructing a `Rom` — from memory or from a file — fails
with `RomInvalidSize` exactly when the image length is not a multiple of 4
or exceeds the 12 MiB ceiling, and otherwise succeeds with the bytes
unchanged and all caches empty. -/
theorem from_mem_invalid_size_iff (data : List Nat) :
    (Rom.from_mem data = .error RomLoadError.romInvalidSize ↔
      ¬ (data.length % 4 = 0 ∧ data.length ≤ ROM_LIMIT)) ∧
    (Rom.from_file_pure data = .error RomLoadError.romInvalidSize ↔
      ¬ (data.length % 4 = 0 ∧ data.length ≤ ROM_LIMIT)) ∧
    (data.length % 4 = 0 → data.length ≤ ROM_LIMIT →
      Rom.from_mem data = .ok ⟨data, none, none, none⟩ ∧
      Rom.from_file_pure data = .ok ⟨data, none, none, none⟩) := by
  unfold Rom.from_mem Rom.from_file_pure
  by_cases hc : data.length % 4 = 0 ∧ data.length ≤ ROM_LIMIT
  · obtain ⟨h1, h2⟩ := hc
    rw [if_neg (by omega), if_pos (by omega)]
    refine ⟨by simp [h1, h2], by simp [h1, h2], fun _ _ => ⟨rfl, rfl⟩⟩
  · rw [if_pos (by omega), if_neg (by omega)]
    exact ⟨by simp [hc], by simp [hc], fun h1 h2 => absurd ⟨h1, h2⟩ hc⟩

/-- Witness for C6: a 4-byte image loads with its bytes unchanged; a 3-byte
image and a 2-byte file both fail with `RomInvalidSize`. -/
theorem from_mem_invalid_size_iff_w :
    Rom.from_mem [9, 8, 7, 6] = .ok ⟨[9, 8, 7, 6], none, none, none⟩ ∧
    Rom.from_mem [1, 2, 3] = .error RomLoadError.romInvalidSize ∧
    Rom.from_file_pure [1, 2] = .error RomLoadError.romInvalidSize :=
  ⟨((from_mem_invalid_size_iff [9, 8, 7, 6]).2.2 (by decide) (by decide)).1,
   (from_mem_invalid_size_iff [1, 2, 3]).1.mpr (by decide),
   (from_mem_invalid_size_iff [1, 2]).2.1.mpr (by decide)⟩

/-- Counterexample to claim C3: on the buffer `[4,0,0,0]` with the cursor
at offset 0, the first `next()` does **not** return `none` — the code only
treats a zero length word as the chain terminator, so a length word of 4
yields a (payload-empty) module. -/
theorem module_chain_terminator4_counterexample :
    (ModuleChain.next ⟨[4, 0, 0, 0], 0⟩).1 ≠ none := by decide

/-- Amended claim C3: iterating the module chain over `[4,0,0,0]` from
offset 0 yields exactly one module — with an empty byte range, reported at
offset 4 — while moving the cursor to the exhausted sentinel `u32::MAX`;
the second `next()` then returns `none`. -/
theorem module_chain_terminator4_amended :
    ModuleChain.next ⟨[4, 0, 0, 0], 0⟩
      = (some ⟨[], 4⟩, ⟨[4, 0, 0, 0], U32_MAX⟩) ∧
    (ModuleChain.next ⟨[4, 0, 0, 0], U32_MAX⟩).1 = none := by decide

/-- `Slice32::cstr` characterised: it returns the prefix strictly before the
first zero byte when one exists, and `none` otherwise. -/
theorem cstr_eq (l : List Nat) :
    Slice32.cstr l =
      if 0 ∈ l then some (l.takeWhile (fun b => b != 0)) else none := by
  induction l with
  | nil => rfl
  | cons b rest ih =>
    by_cases hb : b = 0
    · subst hb
      simp [Slice32.cstr]
    · by_cases hr : 0 ∈ rest <;>
        simp [Slice32.cstr, hb, ih, hr, Ne.symm hb, List.takeWhile_cons]

/-- Claim C7: `Module::title` equals its specification `titleSpec` — it
fails with `UnterminatedCstr` exactly when the word read at `0x10` fails,
or the shift to that offset is out of range, or the shifted view holds no
zero byte; on success it returns the view up to (excluding) the first zero
terminator. -/
theorem title_eq_titleSpec (m : Module) :
    m.title = Module.titleSpec m.bytes := by
  unfold Module.title Module.titleSpec
  cases hw : Slice32.read_word m.bytes 16 with
  | none => simp
  | some o =>
    cases hs : Slice32.subslice_from m.bytes o with
    | none => simp [hs]
    | some v =>
      simp only [hs, Option.some_bind, cstr_eq v]
      by_cases h0 : 0 ∈ v <;> simp [h0]

/-! ## Non-termination of `find_offset_to` with a zero adjustment (C2) -/

/-- With `offset = 0` the cursor loop of `find_offset_to` never exits on the
all-zero word buffer `[0,0,0,0]` with target 4: `checked_sub(0)` never
fails, no position matches, and `move_prev` cycles the cursor through the
word-aligned residues of `u32` forever. -/
theorem fotLoop_zeros_adj0_diverges :
    ∀ (fuel cur : Nat), cur % 4 = 0 → cur < 4294967296 →
      Rom.fotLoop [0, 0, 0, 0] 0 4 fuel cur = Rom.LoopResult.outOfFuel := by
  intro fuel
  induction fuel with
  | zero => intro cur _ _; rfl
  | succ fuel ih =>
    intro cur h4 hlt
    rcases Nat.lt_or_ge cur 4 with hc | hc
    · have hz : cur = 0 := by omega
      subst hz
      have hstep : Rom.fotLoop [0, 0, 0, 0] 0 4 (fuel + 1) 0
          = Rom.fotLoop [0, 0, 0, 0] 0 4 fuel 4294967292 := rfl
      rw [hstep]
      exact ih 4294967292 (by decide) (by decide)
    · simp only [Rom.fotLoop]
      rw [if_pos (Nat.zero_le cur)]
      have hwc : Rom.wc_current [0, 0, 0, 0] cur = none := by
        unfold Rom.wc_current
        rw [if_neg]
        intro hcc
        have h2 : cur + 4 ≤ List.length [0, 0, 0, 0] := hcc.2
        simp at h2
        omega
      rw [hwc]
      simp only [Option.none_bind]
      rw [if_neg (by simp)]
      have harg : (cur + U32_MOD - 4) % U32_MOD = cur - 4 := by
        unfold U32_MOD
        omega
      rw [harg]
      exact ih (cur - 4) (by omega) (by omega)

/-- Claim C2 is violated by the code: on haystack `b"\0\0\0\0A"`, needle
`b"A"` and `fixedAdjustment = 0`, the needle is found (target 4) but no
word matches, and the loop never returns, whatever fuel it is given — the
source, which has no fuel bound, runs forever instead of returning `None`
as the claim (and the spec) state. -/
theorem find_offset_to_diverges_on_zero_adjust :
    ∀ fuel : Nat, Rom.find_offset_to [0, 0, 0, 0, 65] [65] 0 fuel
      = Rom.LoopResult.outOfFuel := by
  intro fuel
  have hred : Rom.find_offset_to [0, 0, 0, 0, 65] [65] 0 fuel
      = Rom.fotLoop [0, 0, 0, 0] 0 4 fuel 0 := rfl
  rw [hred]
  exact fotLoop_zeros_adj0_diverges fuel 0 rfl (by decide)

/-! ## A module-chain head at offset 0 is reported as absent (C10) -/

/-- A 40-byte image whose module chain legitimately starts at offset 0: the
length-prefix word occupies offsets 0–3, the title-offset word at `0x14`
holds 20, and `b"UtilityModule\0"` sits at offset 24, so the heuristic
resolves `find_offset_to(…, 0x10) = 4` and the chain head is `4 - 4 = 0`. -/
def c10Image : List Nat :=
  List.replicate 20 0 ++ [20, 0, 0, 0] ++ Rom.utilityModuleNeedle ++ [0, 0]

/-- Claim C10: on `c10Image` the heuristic does find the chain (the
displacement field resolves to offset 4, the head to `4 - 4 = 0`), but
because the cache stores offsets as `NonZeroU32`, `module_chain_start()`
maps the head offset 0 to `None`, records the confirmed-absent sentinel
`NonZeroU32::MAX`, and is indistinguishable at the public interface from a
ROM (here the empty one) in which `UtilityModule` was never found. -/
theorem chain_head_at_zero_reported_absent :
    Rom.find_offset_to_opt c10Image Rom.utilityModuleNeedle 16 = some 4 ∧
    Rom.mcsFind c10Image = some 0 ∧
    (Rom.moduleChainStart ⟨c10Image, none, none, none⟩).1 = none ∧
    (Rom.moduleChainStart ⟨c10Image, none, none, none⟩).2.module_chain_start
      = some U32_MAX ∧
    (Rom.moduleChainStart ⟨c10Image, none, none, none⟩).1
      = (Rom.moduleChainStart ⟨[], none, none, none⟩).1 := by
  refine ⟨by decide, by decide, by decide, by decide, by decide⟩

/-! ## Known-version fingerprint characterisation (C9) -/

/-- Claim C9: `matches` returns `false` whenever the image is shorter than
`name_internal_pos + name_internal.length` (the sum being overflow-checked),
and returns `true` iff the byte range at `name_internal_pos` equals the
catalog's internal-name bytes and the whole-image CRC-32 equals the
catalog's expected checksum.  `hd` is the physical bound on a Rust slice
indexed through `u32`-checked arithmetic. -/
theorem matchesRom_characterization (v : KnownRiscOsVersion)
    (data : List Nat) (hd : data.length < 4294967296) :
    (data.length < v.name_internal_pos + v.name_internal.length →
      v.matchesRom data = false) ∧
    (v.matchesRom data = true ↔
      v.name_internal_pos + v.name_internal.length ≤ data.length ∧
      (data.drop v.name_internal_pos).take v.name_internal.length
        = v.name_internal ∧
      crc32 data = v.crc32) := by
  have hmain : v.matchesRom data = true ↔
      v.name_internal_pos + v.name_internal.length ≤ data.length ∧
      (data.drop v.name_internal_pos).take v.name_internal.length
        = v.name_internal ∧
      crc32 data = v.crc32 := by
    unfold KnownRiscOsVersion.matchesRom checked_add32
    by_cases hov : v.name_internal_pos + v.name_internal.length ≤ U32_MAX
    · rw [if_pos hov]
      by_cases hin : v.name_internal_pos + v.name_internal.length
          ≤ data.length
      · by_cases hsl : (data.drop v.name_internal_pos).take
            v.name_internal.length = v.name_internal
        · simp [Option.filter, hin, hsl, Nat.add_sub_cancel_left]
        · simp [Option.filter, hin, hsl, Nat.add_sub_cancel_left]
      · simp [Option.filter, hin]
    · rw [if_neg hov]
      have hno : ¬ v.name_internal_pos + v.name_internal.length
          ≤ data.length := by
        unfold U32_MAX at hov
        omega
      simp [hno]
  refine ⟨?_, hmain⟩
  intro hshort
  cases hb : v.matchesRom data
  · rfl
  · have h2 := hmain.mp hb
    omega

/-- Witness for C9: a one-byte catalog entry matches its own image (byte
range and CRC-32 both agree), and an entry whose name lies past the end of
the image is rejected. -/
theorem matchesRom_characterization_w :
    KnownRiscOsVersion.matchesRom ⟨"v", [65], 0, crc32 [65]⟩ [65] = true ∧
    KnownRiscOsVersion.matchesRom ⟨"v", [65], 2, 0⟩ [65] = false :=
  ⟨(matchesRom_characterization ⟨"v", [65], 0, crc32 [65]⟩ [65]
      (by decide)).2.mpr ⟨by decide, by decide, rfl⟩,
   (matchesRom_characterization ⟨"v", [65], 2, 0⟩ [65] (by decide)).1
      (by decide)⟩

/-! ## Stability of the memoized offset cache (C8) -/

/-- One `recell_offset` call leaves the cell in a state from which any
later call — whatever its `find` closure `g` would compute — returns the
first call's result and leaves the cell unchanged.  The bound `hf` reflects
that the searches produce in-image offsets, below the `NonZeroU32::MAX`
sentinel. -/
theorem recell_stable (c f : Option Nat)
    (hf : ∀ n, f = some n → n < U32_MAX) (g : Option Nat) :
    Rom.recell_offset (Rom.recell_offset c f).2 g
      = ((Rom.recell_offset c f).1, (Rom.recell_offset c f).2) := by
  cases c with
  | some v => rfl
  | none =>
    cases f with
    | none => rfl
    | some n =>
      by_cases h0 : n = 0
      · subst h0; rfl
      · have hn := hf n rfl
        simp [Rom.recell_offset, h0, hn]

/-- The kernel search produces only offsets strictly inside the image. -/
theorem kernelFind_lt {data : List Nat} {n : Nat}
    (h : Rom.kernelFind data = some n) : n < data.length := by
  unfold Rom.kernelFind at h
  rcases Option.bind_eq_some.mp h with ⟨p, hp, hn⟩
  rcases Option.filter_eq_some.mp hn with ⟨hmem, hpred⟩
  simpa using hpred

/-- A `found` result of the cursor loop is at least 4 bytes before the end
of the word-truncated buffer. -/
theorem fotLoop_found_le {bytes : List Nat} {offset target : Nat} :
    ∀ {fuel cursor v : Nat},
      Rom.fotLoop bytes offset target fuel cursor
        = Rom.LoopResult.found v →
      v + 4 ≤ bytes.length := by
  intro fuel
  induction fuel with
  | zero => intro cursor v h; simp [Rom.fotLoop] at h
  | succ fuel ih =>
    intro cursor v h
    simp only [Rom.fotLoop] at h
    split at h
    · split at h
      · rename_i hoff hcond
        cases h
        rcases Option.bind_eq_some.mp hcond with ⟨cc, hwc, hadd⟩
        unfold Rom.wc_current at hwc
        by_cases hc2 : cursor + 4 ≤ U32_MAX ∧ cursor + 4 ≤ bytes.length
        · omega
        · rw [if_neg hc2] at hwc
          exact absurd hwc (by simp)
      · exact ih h
    · simp at h

/-- A `found` result of `find_offset_to` is at least 4 bytes before the end
of the haystack. -/
theorem find_offset_to_found_le {h n : List Nat} {off fuel v : Nat}
    (hf : Rom.find_offset_to h n off fuel = Rom.LoopResult.found v) :
    v + 4 ≤ h.length := by
  simp only [Rom.find_offset_to] at hf
  split at hf
  · exact absurd hf (by simp)
  · split at hf
    · exact absurd hf (by simp)
    · rename_i target heq
      have hb := fotLoop_found_le hf
      have hlen : ((h.take target).take
          ((h.take target).length - (h.take target).length % 4)).length
          ≤ h.length := by
        simp [List.length_take]
      omega

/-- The module-chain search produces only offsets strictly inside the
image. -/
theorem mcsFind_lt {data : List Nat} {n : Nat}
    (h : Rom.mcsFind data = some n) : n < data.length := by
  unfold Rom.mcsFind at h
  rcases Option.bind_eq_some.mp h with ⟨m, hm, hsub⟩
  unfold Rom.find_offset_to_opt at hm
  split at hm
  · rename_i v heq
    have hvm : v = m := Option.some.inj hm
    have hb := find_offset_to_found_le heq
    unfold checked_sub32 at hsub
    split at hsub
    · have hn2 : m - 4 = n := Option.some.inj hsub
      omega
    · exact absurd hsub (by simp)
  · exact absurd hm (by simp)

/-- Claim C8: the memoized offset lookups are idempotent and stable.  After
one call to `kernel_start()` or `module_chain_start()`, a second call
returns the same value with the cache unchanged; the cached cell alone
determines the result of any later `recell_offset`, whatever its search
closure `g` would compute (so nothing is re-searched); and once a lookup
returned `none`, later calls return `none`.  `hlen` is the image-size bound
every constructed `Rom` satisfies (12 MiB ≤ 2^31). -/
theorem memoized_offsets_stable (r : Rom)
    (hlen : r.data.length ≤ 2147483648) :
    (Rom.kernelStart (Rom.kernelStart r).2 = Rom.kernelStart r ∧
     Rom.moduleChainStart (Rom.moduleChainStart r).2
        = Rom.moduleChainStart r) ∧
    (∀ g, Rom.recell_offset (Rom.kernelStart r).2.kernel_start g
        = ((Rom.kernelStart r).1, (Rom.kernelStart r).2.kernel_start)) ∧
    (∀ g, Rom.recell_offset (Rom.moduleChainStart r).2.module_chain_start g
        = ((Rom.moduleChainStart r).1,
            (Rom.moduleChainStart r).2.module_chain_start)) ∧
    ((Rom.kernelStart r).1 = none →
      (Rom.kernelStart (Rom.kernelStart r).2).1 = none) ∧
    ((Rom.moduleChainStart r).1 = none →
      (Rom.moduleChainStart (Rom.moduleChainStart r).2).1 = none) := by
  have hfk : ∀ n, Rom.kernelFind r.data = some n → n < U32_MAX := by
    intro n hn
    have := kernelFind_lt hn
    unfold U32_MAX
    omega
  have hfm : ∀ n, Rom.mcsFind r.data = some n → n < U32_MAX := by
    intro n hn
    have := mcsFind_lt hn
    unfold U32_MAX
    omega
  have hk : Rom.kernelStart (Rom.kernelStart r).2 = Rom.kernelStart r :=
    congrArg (fun p : Option Nat × Option Nat =>
        (p.1, { r with kernel_start := p.2 }))
      (recell_stable r.kernel_start (Rom.kernelFind r.data) hfk
        (Rom.kernelFind r.data))
  have hm : Rom.moduleChainStart (Rom.moduleChainStart r).2
      = Rom.moduleChainStart r :=
    congrArg (fun p : Option Nat × Option Nat =>
        (p.1, { r with module_chain_start := p.2 }))
      (recell_stable r.module_chain_start (Rom.mcsFind r.data) hfm
        (Rom.mcsFind r.data))
  refine ⟨⟨hk, hm⟩, ?_, ?_, ?_, ?_⟩
  · exact fun g => recell_stable r.kernel_start (Rom.kernelFind r.data) hfk g
  · exact fun g =>
      recell_stable r.module_chain_start (Rom.mcsFind r.data) hfm g
  · intro hnone; rw [hk]; exact hnone
  · intro hnone; rw [hm]; exact hnone

/-- Witness for C8 on a concrete (empty) ROM: both lookups are idempotent
as state transformers. -/
theorem memoized_offsets_stable_w :
    Rom.kernelStart (Rom.kernelStart ⟨[], none, none, none⟩).2
        = Rom.kernelStart ⟨[], none, none, none⟩ ∧
    Rom.moduleChainStart (Rom.moduleChainStart ⟨[], none, none, none⟩).2
        = Rom.moduleChainStart ⟨[], none, none, none⟩ :=
  (memoized_offsets_stable ⟨[], none, none, none⟩ (by decide)).1

end Roxtract
